import Mathlib

/-!
Verification of the deferred USB task scheduling contract and the
identity/formatting helpers declared in `shared/tinyusb/mp_usbd.h`
(MicroPython, shared TinyUSB glue).

The repository snapshot provides the public header only; the bodies of
`mp_usbd_task`, `mp_usbd_schedule_task` and `mp_usbd_hex_str` live in
`shared/tinyusb/mp_usbd.c`, which is not part of the snapshot.  Where a
definition embeds such a missing body it is modelled from the
specification's contract and its doc comment says so explicitly.
-/

namespace MpUsbd

/-- State of the deferred USB device task machinery, as described by the
specification: a single process-wide pending flag, together with two
observation counters used to state the contracts — how many deferred runs
have been submitted to the host runtime's queue, and how many times the
external USB service routine has been invoked. -/
structure USBDState where
  pending : Bool
  queued : Nat
  serviced : Nat
  deriving DecidableEq, Repr

/-- Modelled from the spec: body of `mp_usbd_schedule_task` (declared in
`mp_usbd.h`, implemented in the missing `mp_usbd.c`). Per §4.1 of the spec:
if no task run is currently pending, mark one pending and submit one run to
the host runtime's deferred-execution queue; if one is already pending, do
nothing. The function is total (C return type `void`): it carries no error
signal. -/
def mp_usbd_schedule_task (s : USBDState) : USBDState :=
  if s.pending then s
  else { s with pending := true, queued := s.queued + 1 }

/-- Modelled from the spec: the first step of `mp_usbd_task` (§4.2), which
clears the pending flag before any servicing happens. -/
def clearPending (s : USBDState) : USBDState :=
  { s with pending := false }

/-- Modelled from the spec: the second step of `mp_usbd_task` (§4.2), one
invocation of the external USB device protocol engine's service routine
(TinyUSB's device task), observed here as a counter increment. -/
def serviceOnce (s : USBDState) : USBDState :=
  { s with serviced := s.serviced + 1 }

/-- Modelled from the spec: body of `mp_usbd_task` (declared in
`mp_usbd.h`). Per §4.2 it clears the pending flag first, then invokes the
external service routine exactly once. -/
def mp_usbd_task (s : USBDState) : USBDState :=
  serviceOnce (clearPending s)

/-- Iterated triggering: `schedN n s` performs `n` consecutive calls to
`mp_usbd_schedule_task` starting from state `s`. -/
def schedN (n : Nat) (s : USBDState) : USBDState :=
  mp_usbd_schedule_task^[n] s

/-- Modelled from the spec: one execution of `mp_usbd_task` with triggers
interleaved mid-service.  Since the clear of the pending flag is the first
action of the runner (§4.2), a trigger arriving mid-service lands after the
clear: `mid` triggers arrive between the clear and the service invocation,
`post` triggers arrive after the service invocation but before the runner
returns. -/
def mp_usbd_task_interleaved (mid post : Nat) (s : USBDState) : USBDState :=
  schedN post (serviceOnce (schedN mid (clearPending s)))

theorem schedule_task_pending (s : USBDState) (h : s.pending = true) :
    mp_usbd_schedule_task s = s := by
  simp [mp_usbd_schedule_task, h]

theorem schedule_task_not_pending (s : USBDState) (h : s.pending = false) :
    mp_usbd_schedule_task s = { s with pending := true, queued := s.queued + 1 } := by
  simp [mp_usbd_schedule_task, h]

theorem schedN_of_pending (n : Nat) (s : USBDState) (h : s.pending = true) :
    schedN n s = s := by
  induction n with
  | zero => rfl
  | succ k ih =>
    have : schedN (k + 1) s = schedN k (mp_usbd_schedule_task s) := by
      simp [schedN, Function.iterate_succ_apply]
    rw [this, schedule_task_pending s h, ih]

theorem schedN_succ_of_not_pending (n : Nat) (s : USBDState) (h : s.pending = false) :
    schedN (n + 1) s = { s with pending := true, queued := s.queued + 1 } := by
  have h1 : schedN (n + 1) s = schedN n (mp_usbd_schedule_task s) := by
    simp [schedN, Function.iterate_succ_apply]
  rw [h1, schedule_task_not_pending s h]
  exact schedN_of_pending n _ rfl

/-- C1. No-lost-event property: `mp_usbd_task` clears the pending flag as
its first action, before invoking the external USB service routine, so for
every interleaving in which `mp_usbd_schedule_task` runs at least once
mid-service (that is, after the clear that opens the runner), the pending
flag is true immediately after the runner returns and exactly one fresh
deferred run has been enqueued — no trigger arriving mid-service is lost. -/
theorem task_no_lost_event (mid post : Nat) (s : USBDState)
    (h : 1 ≤ mid + post) :
    (mp_usbd_task_interleaved mid post s).pending = true ∧
    (mp_usbd_task_interleaved mid post s).queued = s.queued + 1 ∧
    (mp_usbd_task_interleaved mid post s).serviced = s.serviced + 1 := by
  unfold mp_usbd_task_interleaved
  rcases mid with _ | m
  · rcases post with _ | p
    · omega
    · have h0 : schedN 0 (clearPending s) = clearPending s := rfl
      rw [h0, schedN_succ_of_not_pending p (serviceOnce (clearPending s)) rfl]
      refine ⟨rfl, ?_, ?_⟩ <;> simp [clearPending, serviceOnce]
  · rw [schedN_succ_of_not_pending m (clearPending s) rfl,
      schedN_of_pending post _ (by rfl)]
    refine ⟨rfl, ?_, ?_⟩ <;> simp [clearPending, serviceOnce]

/-- Witness for C1: from the initial state, one trigger arriving mid-service
leaves the pending flag set, one run enqueued and one service performed. -/
theorem task_no_lost_event_witness :
    1 ≤ 1 + 0 ∧
    ((mp_usbd_task_interleaved 1 0 ⟨false, 0, 0⟩).pending = true ∧
     (mp_usbd_task_interleaved 1 0 ⟨false, 0, 0⟩).queued = 0 + 1 ∧
     (mp_usbd_task_interleaved 1 0 ⟨false, 0, 0⟩).serviced = 0 + 1) :=
  ⟨by decide, task_no_lost_event 1 0 ⟨false, 0, 0⟩ (by decide)⟩

/-- C2. Coalescing: starting from a state with no run pending, a burst of
`n ≥ 1` calls to `mp_usbd_schedule_task` enqueues exactly one deferred run
(not `n`), and the single `mp_usbd_task` call that follows invokes the
external service routine exactly once and leaves the pending flag false. -/
theorem schedule_task_coalesces (n : Nat) (s : USBDState)
    (hp : s.pending = false) (hn : 1 ≤ n) :
    (schedN n s).queued = s.queued + 1 ∧
    (schedN n s).pending = true ∧
    (mp_usbd_task (schedN n s)).serviced = s.serviced + 1 ∧
    (mp_usbd_task (schedN n s)).pending = false := by
  rcases n with _ | m
  · omega
  · rw [schedN_succ_of_not_pending m s hp]
    exact ⟨rfl, rfl, rfl, rfl⟩

/-- Witness for C2: five rapid triggers from the initial state enqueue one
run; the following task run services once and clears the flag. -/
theorem schedule_task_coalesces_witness :
    ((false : Bool) = false ∧ 1 ≤ 5) ∧
    ((schedN 5 ⟨false, 0, 0⟩).queued = 0 + 1 ∧
     (schedN 5 ⟨false, 0, 0⟩).pending = true ∧
     (mp_usbd_task (schedN 5 ⟨false, 0, 0⟩)).serviced = 0 + 1 ∧
     (mp_usbd_task (schedN 5 ⟨false, 0, 0⟩)).pending = false) :=
  ⟨⟨rfl, by decide⟩, schedule_task_coalesces 5 ⟨false, 0, 0⟩ rfl (by decide)⟩

/-- C6. The trigger never fails: `mp_usbd_schedule_task` is a total function
on states (its C return type is `void`, so it carries no error signal), and
for every state — whether or not a run was already pending — the call
succeeds and establishes its postcondition: a run is pending afterwards, and
the deferred-run queue grew by at most one entry and never shrank. -/
theorem schedule_task_never_fails (s : USBDState) :
    (mp_usbd_schedule_task s).pending = true ∧
    s.queued ≤ (mp_usbd_schedule_task s).queued ∧
    (mp_usbd_schedule_task s).queued ≤ s.queued + 1 := by
  by_cases h : s.pending = true
  · rw [schedule_task_pending s h]
    exact ⟨h, Nat.le_refl _, Nat.le_succ _⟩
  · rw [schedule_task_not_pending s (by simpa using h)]
    exact ⟨rfl, Nat.le_succ _, Nat.le_refl _⟩

/-- NUL character, the C string terminator written by `mp_usbd_hex_str`. -/
def nulChar : Char := Char.ofNat 0

/-- Hexadecimal digit for a nibble value, using the lowercase convention
fixed by the spec's Scenario 1 (`[0x01, 0xAB, 0xFF]` formats as `"01abff"`):
values 0-9 map to `'0'`-`'9'` (codes 48-57), values 10-15 to `'a'`-`'f'`
(codes 97-102). -/
def hexDigit (n : Nat) : Char :=
  Char.ofNat (if n < 10 then 48 + n else 87 + n)

/-- Lowercase hexadecimal digit table `"0123456789abcdef"`. -/
def hexdig : List Char := (List.range 16).map hexDigit

/-- Modelled from the spec: the two-character big-endian group written for
one byte — high nibble first, then low nibble, no separators (§4.4). -/
def hexByte (b : Nat) : List Char := [hexDigit (b / 16), hexDigit (b % 16)]

/-- Hex encoding of a byte list: the concatenation of the per-byte groups,
in input order. -/
def hexEncodeList : List Nat → List Char
  | [] => []
  | b :: rest => hexByte b ++ hexEncodeList rest

/-- Modelled from the spec: body of `mp_usbd_hex_str` (declared in
`mp_usbd.h`, implemented in the missing `mp_usbd.c`). Input memory is a
function from offset to byte value, read at offsets `0 .. bytes_len - 1`;
the result is the full character sequence written to `out_str`: two
lowercase hex characters per byte, big-endian within each byte, followed by
the NUL terminator (§4.4). -/
def mp_usbd_hex_str (bytes : Nat → Nat) (bytes_len : Nat) : List Char :=
  hexEncodeList ((List.range bytes_len).map bytes) ++ [nulChar]

/-- Value of one hexadecimal character (inverse of `hexDigit` on lowercase
digits): letters `a`-`f` map to 10-15, digits `0`-`9` to 0-9. -/
def hexVal (c : Char) : Nat :=
  if 97 ≤ c.toNat then c.toNat - 87 else c.toNat - 48

/-- Decoding of consecutive 2-character hexadecimal groups into bytes. -/
def hexDecode : List Char → List Nat
  | hi :: lo :: rest => (16 * hexVal hi + hexVal lo) :: hexDecode rest
  | _ => []

theorem hexVal_hexDigit (n : Nat) (h : n < 16) : hexVal (hexDigit n) = n := by
  interval_cases n <;> decide

theorem hexDigit_mem_hexdig (n : Nat) (h : n < 16) : hexDigit n ∈ hexdig := by
  interval_cases n <;> decide

theorem hexEncodeList_length (B : List Nat) :
    (hexEncodeList B).length = 2 * B.length := by
  induction B with
  | nil => rfl
  | cons b rest ih => simp [hexEncodeList, hexByte, ih]; omega

theorem hexDecode_hexEncodeList (B : List Nat) (h : ∀ b ∈ B, b < 256) :
    hexDecode (hexEncodeList B) = B := by
  induction B with
  | nil => rfl
  | cons b rest ih =>
    have hb : b < 256 := h b (List.mem_cons_self b rest)
    have hhi : b / 16 < 16 := Nat.div_lt_of_lt_mul (by omega)
    have hlo : b % 16 < 16 := Nat.mod_lt b (by omega)
    have hrest : hexDecode (hexEncodeList rest) = rest :=
      ih fun x hx => h x (List.mem_cons_of_mem b hx)
    show (16 * hexVal (hexDigit (b / 16)) + hexVal (hexDigit (b % 16))) ::
        hexDecode (hexEncodeList rest) = b :: rest
    rw [hexVal_hexDigit _ hhi, hexVal_hexDigit _ hlo, hrest, Nat.div_add_mod b 16]

theorem range_map_getD (B : List Nat) :
    (List.range B.length).map (fun i => B.getD i 0) = B := by
  apply List.ext_getElem
  · simp
  · intro i h1 h2
    simp only [List.getElem_map, List.getElem_range]
    exact List.getD_eq_getElem B 0 h2

/-- C3. Hex round-trip: for every byte sequence `B`, the string part of the
output of `mp_usbd_hex_str` on `B` (the characters before the NUL
terminator) has length exactly `2 * B.length`, and decoding its consecutive
2-character hexadecimal groups yields `B` back. -/
theorem hex_str_round_trip (B : List Nat) (h : ∀ b ∈ B, b < 256) :
    ((mp_usbd_hex_str (fun i => B.getD i 0) B.length).dropLast).length =
      2 * B.length ∧
    hexDecode ((mp_usbd_hex_str (fun i => B.getD i 0) B.length).dropLast) = B := by
  have hs : (mp_usbd_hex_str (fun i => B.getD i 0) B.length).dropLast =
      hexEncodeList B := by
    unfold mp_usbd_hex_str
    rw [range_map_getD B]
    simp
  rw [hs, hexEncodeList_length]
  exact ⟨rfl, hexDecode_hexEncodeList B h⟩

/-- Witness for C3: the round-trip evaluated on the concrete byte sequence
`[0x01, 0xAB, 0xFF]`. -/
theorem hex_str_round_trip_witness :
    (∀ b ∈ [1, 171, 255], b < 256) ∧
    (((mp_usbd_hex_str (fun i => [1, 171, 255].getD i 0) 3).dropLast).length =
        2 * 3 ∧
     hexDecode ((mp_usbd_hex_str (fun i => [1, 171, 255].getD i 0) 3).dropLast) =
        [1, 171, 255]) :=
  ⟨by decide, hex_str_round_trip [1, 171, 255] (by decide)⟩

theorem range_map_getD_at (f : Nat → Nat) (len i : Nat) (d : Nat) (h : i < len) :
    ((List.range len).map f).getD i d = f i := by
  rw [List.getD_eq_getElem _ _ (by simpa using h)]
  simp

theorem hexEncodeList_getD (d : Char) (B : List Nat) :
    ∀ i, i < B.length →
      (hexEncodeList B).getD (2 * i) d = hexDigit (B.getD i 0 / 16) ∧
      (hexEncodeList B).getD (2 * i + 1) d = hexDigit (B.getD i 0 % 16) := by
  induction B with
  | nil => intro i h; simp at h
  | cons b rest ih =>
    intro i h
    have hlist : hexEncodeList (b :: rest) =
        hexDigit (b / 16) :: hexDigit (b % 16) :: hexEncodeList rest := rfl
    cases i with
    | zero => simp [hlist]
    | succ j =>
      obtain ⟨ih1, ih2⟩ := ih j (by simpa using Nat.lt_of_succ_lt_succ h)
      constructor
      · have e1 : 2 * (j + 1) = (2 * j + 1) + 1 := by ring
        rw [hlist, e1, List.getD_cons_succ, List.getD_cons_succ,
          List.getD_cons_succ]
        exact ih1
      · have e2 : 2 * (j + 1) + 1 = ((2 * j + 1) + 1) + 1 := by ring
        rw [hlist, e2, List.getD_cons_succ, List.getD_cons_succ,
          List.getD_cons_succ]
        exact ih2

theorem hexEncodeList_mem (B : List Nat) (h : ∀ b ∈ B, b < 256) :
    ∀ c ∈ hexEncodeList B, c ∈ hexdig := by
  induction B with
  | nil => intro c hc; simp [hexEncodeList] at hc
  | cons b rest ih =>
    intro c hc
    have hb : b < 256 := h b (List.mem_cons_self b rest)
    rcases List.mem_append.mp hc with hc | hc
    · rcases List.mem_pair.mp hc with rfl | rfl
      · exact hexDigit_mem_hexdig _ (Nat.div_lt_of_lt_mul (by omega))
      · exact hexDigit_mem_hexdig _ (Nat.mod_lt b (by omega))
    · exact ih (fun x hx => h x (List.mem_cons_of_mem b hx)) c hc

/-- C4. Hex output format: on an input of `len` bytes, `mp_usbd_hex_str`
writes exactly `2 * len` hexadecimal characters followed by a NUL
terminator — big-endian within each byte (high nibble at even offset
`2 * i`, low nibble at `2 * i + 1`), one 2-digit group per byte, no
separators — and on the concrete bytes `[0x01, 0xAB, 0xFF]` it produces the
string `"01abff"` plus terminator. -/
theorem hex_str_format (bytes : Nat → Nat) (len : Nat)
    (h : ∀ i < len, bytes i < 256) :
    (mp_usbd_hex_str bytes len).length = 2 * len + 1 ∧
    (mp_usbd_hex_str bytes len).getLast? = some nulChar ∧
    (∀ c ∈ (mp_usbd_hex_str bytes len).dropLast, c ∈ hexdig) ∧
    (∀ i < len,
      (mp_usbd_hex_str bytes len).getD (2 * i) nulChar =
        hexDigit (bytes i / 16) ∧
      (mp_usbd_hex_str bytes len).getD (2 * i + 1) nulChar =
        hexDigit (bytes i % 16)) ∧
    mp_usbd_hex_str (fun i => [1, 171, 255].getD i 0) 3 =
      ['0', '1', 'a', 'b', 'f', 'f', nulChar] := by
  have hB : ∀ b ∈ (List.range len).map bytes, b < 256 := by
    intro b hb
    rcases List.mem_map.mp hb with ⟨i, hi, rfl⟩
    exact h i (List.mem_range.mp hi)
  have hlen2 : (hexEncodeList ((List.range len).map bytes)).length = 2 * len := by
    rw [hexEncodeList_length]; simp
  refine ⟨?_, ?_, ?_, ?_, ?_⟩
  · simp [mp_usbd_hex_str, hexEncodeList_length]
  · simp [mp_usbd_hex_str]
  · intro c hc
    have : (mp_usbd_hex_str bytes len).dropLast =
        hexEncodeList ((List.range len).map bytes) := by
      simp [mp_usbd_hex_str]
    rw [this] at hc
    exact hexEncodeList_mem _ hB c hc
  · intro i hi
    have hi2 : 2 * i < (hexEncodeList ((List.range len).map bytes)).length := by
      omega
    have hi2' : 2 * i + 1 < (hexEncodeList ((List.range len).map bytes)).length := by
      omega
    obtain ⟨e1, e2⟩ := hexEncodeList_getD nulChar ((List.range len).map bytes) i
      (by simpa using hi)
    constructor
    · rw [mp_usbd_hex_str, List.getD_append _ _ _ _ hi2, e1,
        range_map_getD_at bytes len i 0 hi]
    · rw [mp_usbd_hex_str, List.getD_append _ _ _ _ hi2', e2,
        range_map_getD_at bytes len i 0 hi]
  · rfl

/-- Witness for C4: the format properties evaluated at the concrete input
`[0x01, 0xAB, 0xFF]` of length 3. -/
theorem hex_str_format_witness :
    (∀ i < 3, (fun j => [1, 171, 255].getD j 0) i < 256) ∧
    ((mp_usbd_hex_str (fun j => [1, 171, 255].getD j 0) 3).length = 2 * 3 + 1 ∧
     (mp_usbd_hex_str (fun j => [1, 171, 255].getD j 0) 3).getLast? =
        some nulChar ∧
     (∀ c ∈ (mp_usbd_hex_str (fun j => [1, 171, 255].getD j 0) 3).dropLast,
        c ∈ hexdig) ∧
     (∀ i < 3,
       (mp_usbd_hex_str (fun j => [1, 171, 255].getD j 0) 3).getD (2 * i)
          nulChar = hexDigit ((fun j => [1, 171, 255].getD j 0) i / 16) ∧
       (mp_usbd_hex_str (fun j => [1, 171, 255].getD j 0) 3).getD (2 * i + 1)
          nulChar = hexDigit ((fun j => [1, 171, 255].getD j 0) i % 16)) ∧
     mp_usbd_hex_str (fun i => [1, 171, 255].getD i 0) 3 =
        ['0', '1', 'a', 'b', 'f', 'f', nulChar]) :=
  ⟨by decide, hex_str_format (fun j => [1, 171, 255].getD j 0) 3 (by decide)⟩

/-- Modelled from the spec: the effect of a call
`mp_usbd_hex_str(out_str, bytes, len)` on a caller-owned output buffer of
capacity at least `2 * len + 1`: positions `0 .. 2 * len` receive the hex
string and its terminator, and every later position keeps its previous
contents (the input `bytes` region is read-only, `const uint8_t *`). -/
def mp_usbd_hex_str_write (out_buf : List Char) (bytes : Nat → Nat)
    (len : Nat) : List Char :=
  mp_usbd_hex_str bytes len ++ out_buf.drop (2 * len + 1)

theorem getD_drop_eq (buf : List Char) (m n : Nat) (d : Char) :
    (buf.drop m).getD n d = buf.getD (m + n) d := by
  rcases Nat.lt_or_ge n (buf.drop m).length with hlt | hge
  · have hmn : m + n < buf.length := by
      simp only [List.length_drop] at hlt; omega
    rw [List.getD_eq_getElem _ _ hlt, List.getD_eq_getElem _ _ hmn]
    exact List.getElem_drop ..
  · have hmn : buf.length ≤ m + n := by
      simp only [List.length_drop] at hge; omega
    rw [List.getD_eq_default _ _ hge, List.getD_eq_default _ _ hmn]

/-- C7. Determinism and frame of `mp_usbd_hex_str`: two runs on input byte
regions that agree on the `len` bytes actually read write identical output;
writing into a larger buffer modifies nothing outside the first
`2 * len + 1` positions and preserves the buffer length; the input region is
read-only by type (`const uint8_t *`, embedded as a pure function that the
call cannot modify). -/
theorem hex_str_pure_frame (out_buf : List Char) (b1 b2 : Nat → Nat)
    (len : Nat) (hagree : ∀ i < len, b1 i = b2 i) :
    mp_usbd_hex_str b1 len = mp_usbd_hex_str b2 len ∧
    (∀ i d, 2 * len + 1 ≤ i →
      (mp_usbd_hex_str_write out_buf b1 len).getD i d = out_buf.getD i d) ∧
    (2 * len + 1 ≤ out_buf.length →
      (mp_usbd_hex_str_write out_buf b1 len).length = out_buf.length) := by
  have hlen : (mp_usbd_hex_str b1 len).length = 2 * len + 1 := by
    simp [mp_usbd_hex_str, hexEncodeList_length]
  refine ⟨?_, ?_, ?_⟩
  · unfold mp_usbd_hex_str
    congr 2
    apply List.map_congr_left
    intro a ha
    exact hagree a (List.mem_range.mp ha)
  · intro i d hi
    unfold mp_usbd_hex_str_write
    rw [List.getD_append_right _ _ _ _ (by omega), getD_drop_eq]
    congr 1
    omega
  · intro hcap
    unfold mp_usbd_hex_str_write
    rw [List.length_append, List.length_drop, hlen]
    omega

/-- Witness for C7: evaluated with a concrete 5-character buffer, the input
bytes `[0x01, 0xAB]`, and a second input region agreeing on the two bytes
read. -/
theorem hex_str_pure_frame_witness :
    (∀ i < 2, [1, 171].getD i 0 = [1, 171, 9].getD i 0) ∧
    (mp_usbd_hex_str (fun i => [1, 171].getD i 0) 2 =
      mp_usbd_hex_str (fun i => [1, 171, 9].getD i 0) 2 ∧
     (∀ i d, 2 * 2 + 1 ≤ i →
       (mp_usbd_hex_str_write ['x', 'x', 'x', 'x', 'x', 'y', 'z']
          (fun i => [1, 171].getD i 0) 2).getD i d =
        (['x', 'x', 'x', 'x', 'x', 'y', 'z'] : List Char).getD i d) ∧
     (2 * 2 + 1 ≤ (['x', 'x', 'x', 'x', 'x', 'y', 'z'] : List Char).length →
       (mp_usbd_hex_str_write ['x', 'x', 'x', 'x', 'x', 'y', 'z']
          (fun i => [1, 171].getD i 0) 2).length =
        (['x', 'x', 'x', 'x', 'x', 'y', 'z'] : List Char).length)) :=
  ⟨by decide, hex_str_pure_frame ['x', 'x', 'x', 'x', 'x', 'y', 'z']
    (fun i => [1, 171].getD i 0) (fun i => [1, 171, 9].getD i 0) 2 (by decide)⟩

/-- C10. Empty-input edge case: with `bytes_len = 0`, `mp_usbd_hex_str`
writes exactly the one-character sequence consisting of the NUL terminator
(the empty string), so a buffer of capacity `1 = 2 * 0 + 1` suffices; the
output is the same for every input byte region, i.e. the `bytes` pointer is
never read. -/
theorem hex_str_empty_input :
    (∀ bytes : Nat → Nat, mp_usbd_hex_str bytes 0 = [nulChar] ∧
      (mp_usbd_hex_str bytes 0).length = 1) ∧
    (∀ f g : Nat → Nat, mp_usbd_hex_str f 0 = mp_usbd_hex_str g 0) :=
  ⟨fun _ => ⟨rfl, rfl⟩, fun _ _ => rfl⟩

/-- Modelled from the spec: the effect on the caller's buffer of a
conforming port implementation of `mp_usbd_port_get_serial_number`
(declared `extern` in `mp_usbd.h`, implemented in port code). Per the
header comment — "Can write a string up to MICROPY_HW_USB_DESC_STR_MAX
characters long, plus terminating byte" — the port writes its chosen
serial string `s` into `buf`, followed by the NUL terminator; cells past
the terminator keep their previous contents. -/
def mp_usbd_port_get_serial_number (buf s : List Char) : List Char :=
  (s ++ [nulChar]) ++ buf.drop (s.length + 1)

/-- C string length of a character buffer: the number of characters before
the first NUL. -/
def cStrLen : List Char → Nat
  | [] => 0
  | c :: rest => if c = nulChar then 0 else cStrLen rest + 1

theorem cStrLen_write (s rest : List Char) (h : ∀ c ∈ s, c ≠ nulChar) :
    cStrLen ((s ++ [nulChar]) ++ rest) = s.length := by
  induction s with
  | nil => simp [cStrLen]
  | cons c s' ih =>
    have hc : c ≠ nulChar := h c (List.mem_cons_self c s')
    have : ((c :: s' ++ [nulChar]) ++ rest) = c :: ((s' ++ [nulChar]) ++ rest) := by
      simp
    rw [this]
    simp only [cStrLen, if_neg hc]
    rw [ih (fun x hx => h x (List.mem_cons_of_mem c hx))]
    simp

/-- C5. Serial number bound: for a configured `MICROPY_HW_USB_DESC_STR_MAX`
(`maxLen`), every conforming write — a serial string of at most `maxLen`
non-NUL characters — into a buffer of capacity at least `maxLen + 1` leaves
the buffer holding a NUL-terminated string of length at most `maxLen`: its C
string length equals the serial's length, the terminator sits inside the
buffer at index `s.length < buf.length`, at most `maxLen + 1` cells are
touched (every cell from index `s.length + 1` on is unchanged), and the
buffer keeps its length. -/
theorem serial_number_bound (maxLen : Nat) (s buf : List Char)
    (hlen : s.length ≤ maxLen) (hnul : ∀ c ∈ s, c ≠ nulChar)
    (hcap : maxLen + 1 ≤ buf.length) :
    cStrLen (mp_usbd_port_get_serial_number buf s) = s.length ∧
    cStrLen (mp_usbd_port_get_serial_number buf s) ≤ maxLen ∧
    (mp_usbd_port_get_serial_number buf s).getD s.length '!' = nulChar ∧
    s.length < buf.length ∧
    (∀ i d, s.length + 1 ≤ i →
      (mp_usbd_port_get_serial_number buf s).getD i d = buf.getD i d) ∧
    (mp_usbd_port_get_serial_number buf s).length = buf.length := by
  have hws : cStrLen (mp_usbd_port_get_serial_number buf s) = s.length :=
    cStrLen_write s _ hnul
  refine ⟨hws, hws ▸ hlen, ?_, by omega, ?_, ?_⟩
  · unfold mp_usbd_port_get_serial_number
    rw [List.getD_append _ _ _ _ (by simp),
      List.getD_append_right _ _ _ _ (Nat.le_refl _)]
    simp
  · intro i d hi
    unfold mp_usbd_port_get_serial_number
    rw [List.getD_append_right _ _ _ _ (by simp; omega), getD_drop_eq]
    congr 1
    simp
    omega
  · unfold mp_usbd_port_get_serial_number
    rw [List.length_append, List.length_drop]
    simp
    omega

/-- Witness for C5: a conforming write of the 3-character serial `"abc"`
with `maxLen = 4` into a 5-cell buffer. -/
theorem serial_number_bound_witness :
    (("abc".toList : List Char).length ≤ 4 ∧
     (∀ c ∈ ("abc".toList : List Char), c ≠ nulChar) ∧
     4 + 1 ≤ (['x', 'x', 'x', 'x', 'x'] : List Char).length) ∧
    (cStrLen (mp_usbd_port_get_serial_number ['x', 'x', 'x', 'x', 'x']
        "abc".toList) = ("abc".toList : List Char).length ∧
     cStrLen (mp_usbd_port_get_serial_number ['x', 'x', 'x', 'x', 'x']
        "abc".toList) ≤ 4 ∧
     (mp_usbd_port_get_serial_number ['x', 'x', 'x', 'x', 'x']
        "abc".toList).getD ("abc".toList : List Char).length '!' = nulChar ∧
     ("abc".toList : List Char).length <
        (['x', 'x', 'x', 'x', 'x'] : List Char).length ∧
     (∀ i d, ("abc".toList : List Char).length + 1 ≤ i →
       (mp_usbd_port_get_serial_number ['x', 'x', 'x', 'x', 'x']
          "abc".toList).getD i d =
        (['x', 'x', 'x', 'x', 'x'] : List Char).getD i d) ∧
     (mp_usbd_port_get_serial_number ['x', 'x', 'x', 'x', 'x']
        "abc".toList).length =
        (['x', 'x', 'x', 'x', 'x'] : List Char).length) :=
  ⟨⟨by decide, by decide, by decide⟩,
    serial_number_bound 4 "abc".toList ['x', 'x', 'x', 'x', 'x']
      (by decide) (by decide) (by decide)⟩

/-- Declarations of the public interface of `mp_usbd.h`, one constructor per
declared symbol. -/
inductive USBDInterfaceDecl where
  | task
  | schedule_task
  | port_get_serial_number
  | hex_str
  | deinit
  deriving DecidableEq

/-- Public interface of `mp_usbd.h` as a function of the compile-time flag
`MICROPY_HW_ENABLE_USB_RUNTIME_DEVICE`: the four unconditional declarations,
plus `mp_usbd_deinit` exactly when the flag is set (the `#if` block at the
end of the header). -/
def mp_usbd_h_decls (enable_usb_runtime_device : Bool) : List USBDInterfaceDecl :=
  [USBDInterfaceDecl.task, USBDInterfaceDecl.schedule_task,
    USBDInterfaceDecl.port_get_serial_number, USBDInterfaceDecl.hex_str] ++
    (if enable_usb_runtime_device then [USBDInterfaceDecl.deinit] else [])

/-- C9. `mp_usbd_deinit` is declared if and only if
`MICROPY_HW_ENABLE_USB_RUNTIME_DEVICE` is set, and no other declaration of
the header depends on that flag. -/
theorem deinit_iff_runtime_device :
    (∀ flag : Bool,
      USBDInterfaceDecl.deinit ∈ mp_usbd_h_decls flag ↔ flag = true) ∧
    (∀ d : USBDInterfaceDecl, d ≠ USBDInterfaceDecl.deinit →
      ∀ f1 f2 : Bool, (d ∈ mp_usbd_h_decls f1 ↔ d ∈ mp_usbd_h_decls f2)) := by
  constructor
  · intro flag
    cases flag <;> decide
  · intro d hd f1 f2
    cases d <;> first
      | exact absurd rfl hd
      | (cases f1 <;> cases f2 <;> decide)

/-- Witness for C9: concrete instances — `mp_usbd_deinit` is present when
the flag is set, and `mp_usbd_task` is present independently of it. -/
theorem deinit_iff_runtime_device_witness :
    (USBDInterfaceDecl.deinit ∈ mp_usbd_h_decls true ↔ true = true) ∧
    (USBDInterfaceDecl.task ∈ mp_usbd_h_decls false ↔
      USBDInterfaceDecl.task ∈ mp_usbd_h_decls true) :=
  ⟨deinit_iff_runtime_device.1 true,
    deinit_iff_runtime_device.2 USBDInterfaceDecl.task (by decide) false true⟩

end MpUsbd
